import Mathlib

/-!
Shallow embedding of the data pipeline of `make-polar-rs` (`src/datapoints.rs`,
`src/main.rs`): the record assembler (`load_reader` / `process_nmea`), the
windowed binner and compositor (`Data::graph`), and the mode-pair reduction
(`calculate_bin_values`).

Modelling conventions:
* `f32` measurement values are modelled as `ℚ` (no claim under scrutiny depends
  on binary-float rounding); `f32::min` / `f32::max` on non-NaN values are
  `min` / `max` on `ℚ`.
* `chrono::DateTime<Utc>` is modelled as `ℤ` (milliseconds since the Unix
  epoch); `DateTime::default()` is `0`, `TimeDelta` is `ℤ` milliseconds.
* `u32` quantities are `ℕ` together with explicit wrap-around arithmetic
  (`% 2^32`) where the source can overflow; `expr as u32` on an `f32` is
  truncation toward zero saturated to `[0, 2^32-1]`; `expr as i64` is
  truncation toward zero (saturation at `i64` bounds is unreachable for the
  magnitudes involved and is not modelled).
* The fallible/diverging parts of `Data::graph` (the `unwrap` of the reduced
  extents, and the unbounded sweep loop) are modelled with an explicit result
  type and a fuel parameter.
-/

/-- Tolerance used by `approx_eq` on `f32` in the `euclid` crate
(`approx_epsilon() = 1.0e-6`), as used by `calculate_bin_values`. -/
def eps : ℚ := 1 / 1000000

/-- Embedding of `entry.0.approx_eq(item)` from `calculate_bin_values`:
euclid's `approx_eq_eps` is `(self - other).abs() < epsilon`. -/
def approxEq (a b : ℚ) : Prop := |a - b| < eps

instance (a b : ℚ) : Decidable (approxEq a b) := by unfold approxEq; infer_instance

/-- One iteration of the outer `for item in data` loop of
`calculate_bin_values`: scan `speed_frequencies` in order, increment the count
of the first entry whose value is `approx_eq` to `item`, otherwise push
`(item, 1)` at the end. -/
def insertFreq : List (ℚ × ℤ) → ℚ → List (ℚ × ℤ)
  | [], x => [(x, 1)]
  | (k, c) :: rest, x =>
    if approxEq k x then (k, c + 1) :: rest else (k, c) :: insertFreq rest x

/-- The `speed_frequencies` list built by `calculate_bin_values` from `data`. -/
def buildFreq (data : List ℚ) : List (ℚ × ℤ) := data.foldl insertFreq []

/-- The comparator passed to `speed_frequencies.sort_by`: ascending count
(`a.1.partial_cmp(&b.1)`), ties broken by ascending value
(`a.0.partial_cmp(&b.0)`). `freqLe a b` holds when `a` sorts no later than
`b`. -/
def freqLe (a b : ℚ × ℤ) : Prop := a.2 < b.2 ∨ (a.2 = b.2 ∧ a.1 ≤ b.1)

instance : DecidableRel freqLe := fun a b => by unfold freqLe; infer_instance

/-- Embedding of `calculate_bin_values` from `src/datapoints.rs`: frequency-group the
values by approximate equality, `sort_by` the comparator above, `reverse`,
and return `(a.min(b), a.max(b))` of the first two entries (`b = a` when only
one group exists). -/
def calculate_bin_values (data : List ℚ) : ℚ × ℚ :=
  match data with
  | [] => (0, 0)
  | [x] => (x, x)
  | _ =>
    let sf := (List.insertionSort freqLe (buildFreq data)).reverse
    let a := sf.headI.1
    let b := if sf.length = 1 then sf.headI.1 else (sf.getD 1 default).1
    (min a b, max a b)

/-- Modelled from the spec's words for claim C4 (the claim as stated): groups
are sorted "descending by count with ties broken by ascending value".
`freqGeClaim a b` holds when `a` sorts no later than `b` under that order. -/
def freqGeClaim (a b : ℚ × ℤ) : Prop := b.2 < a.2 ∨ (a.2 = b.2 ∧ a.1 ≤ b.1)

instance : DecidableRel freqGeClaim := fun a b => by unfold freqGeClaim; infer_instance

/-- Modelled from the spec's words for claim C4, as stated: same grouping as
`calculate_bin_values`, but the groups sorted descending by count with ties
broken by ascending value, then the first two representatives taken. -/
def calculate_bin_values_specC4 (data : List ℚ) : ℚ × ℚ :=
  match data with
  | [] => (0, 0)
  | [x] => (x, x)
  | _ =>
    let sf := List.insertionSort freqGeClaim (buildFreq data)
    let a := sf.headI.1
    let b := if sf.length = 1 then sf.headI.1 else (sf.getD 1 default).1
    (min a b, max a b)

/-- The order that `sort_by` + `reverse` actually realises: descending count,
ties broken by descending value (the amended claim C4). -/
def freqGeDesc (a b : ℚ × ℤ) : Prop := b.2 < a.2 ∨ (a.2 = b.2 ∧ b.1 ≤ a.1)

instance : DecidableRel freqGeDesc := fun a b => by unfold freqGeDesc; infer_instance

/-- The amended claim C4 as a definition: groups sorted descending by count
with ties broken by descending value, then the first two representatives
taken and returned as `(min, max)`. -/
def calculate_bin_values_specAmended (data : List ℚ) : ℚ × ℚ :=
  match data with
  | [] => (0, 0)
  | [x] => (x, x)
  | _ =>
    let sf := List.insertionSort freqGeDesc (buildFreq data)
    let a := sf.headI.1
    let b := if sf.length = 1 then sf.headI.1 else (sf.getD 1 default).1
    (min a b, max a b)

instance : IsTotal (ℚ × ℤ) freqLe := by
  constructor
  rintro ⟨av, ac⟩ ⟨bv, bc⟩
  rcases lt_trichotomy ac bc with h | h | h
  · exact Or.inl (Or.inl h)
  · rcases le_total av bv with h' | h'
    · exact Or.inl (Or.inr ⟨h, h'⟩)
    · exact Or.inr (Or.inr ⟨h.symm, h'⟩)
  · exact Or.inr (Or.inl h)

instance : IsTrans (ℚ × ℤ) freqLe := by
  constructor
  rintro ⟨av, ac⟩ ⟨bv, bc⟩ ⟨cv, cc⟩ (h | ⟨h, h'⟩) (g | ⟨g, g'⟩)
  · exact Or.inl (h.trans g)
  · exact Or.inl (g ▸ h)
  · exact Or.inl (h ▸ g)
  · exact Or.inr ⟨h.trans g, h'.trans g'⟩

instance : IsAntisymm (ℚ × ℤ) freqLe := by
  constructor
  rintro ⟨av, ac⟩ ⟨bv, bc⟩ (h | ⟨h, h'⟩) (g | ⟨g, g'⟩)
  · exact absurd g (lt_asymm h)
  · exact absurd h (g ▸ lt_irrefl _)
  · exact absurd g (h ▸ lt_irrefl _)
  · exact Prod.ext (le_antisymm h' g') h

instance : IsTotal (ℚ × ℤ) freqGeDesc := by
  constructor
  rintro ⟨av, ac⟩ ⟨bv, bc⟩
  rcases lt_trichotomy ac bc with h | h | h
  · exact Or.inr (Or.inl h)
  · rcases le_total av bv with h' | h'
    · exact Or.inr (Or.inr ⟨h.symm, h'⟩)
    · exact Or.inl (Or.inr ⟨h, h'⟩)
  · exact Or.inl (Or.inl h)

instance : IsTrans (ℚ × ℤ) freqGeDesc := by
  constructor
  rintro ⟨av, ac⟩ ⟨bv, bc⟩ ⟨cv, cc⟩ (h | ⟨h, h'⟩) (g | ⟨g, g'⟩)
  · exact Or.inl (g.trans h)
  · exact Or.inl (g ▸ h)
  · exact Or.inl (h ▸ g)
  · exact Or.inr ⟨h.trans g, g'.trans h'⟩

instance : IsAntisymm (ℚ × ℤ) freqGeDesc := by
  constructor
  rintro ⟨av, ac⟩ ⟨bv, bc⟩ (h | ⟨h, h'⟩) (g | ⟨g, g'⟩)
  · exact absurd g (lt_asymm h)
  · exact absurd h (g ▸ lt_irrefl _)
  · exact absurd g (h ▸ lt_irrefl _)
  · exact Prod.ext (le_antisymm g' h') h

/-- The wind-direction reflection applied per member inside the sweep loop of
`Data::graph`: `if a.winddirection > 180 { 360 - a.winddirection } else
{ a.winddirection }`. -/
def foldWindDirection (v : ℚ) : ℚ := if v > 180 then 360 - v else v

/-- Proof-side variant of `insertFreq` that compares keys by exact equality
instead of `approxEq`; under the separation hypothesis of claim C5 the two
coincide. -/
def insertExact : List (ℚ × ℤ) → ℚ → List (ℚ × ℤ)
  | [], x => [(x, 1)]
  | (k, c) :: rest, x =>
    if k = x then (k, c + 1) :: rest else (k, c) :: insertExact rest x

/-- Association-list lookup on the frequency list (first entry wins, matching
the scan order of the source loop). -/
def lookupF : List (ℚ × ℤ) → ℚ → Option ℤ
  | [], _ => none
  | (k, c) :: rest, v => if k = v then some c else lookupF rest v

/-- Separation hypothesis of the amended claim C5: any two members of the
list are either equal or at least `eps` apart, so that epsilon-grouping is
unambiguous. -/
def Separated (l : List ℚ) : Prop := ∀ a ∈ l, ∀ b ∈ l, approxEq a b → a = b

/-- Embedding of `DataPoint` from `src/datapoints.rs`; `timestamp` is a
`chrono::DateTime<Utc>` modelled as milliseconds since the Unix epoch, so
`DateTime::<Utc>::default()` is `0`. -/
structure DataPoint where
  timestamp : ℤ
  boatspeed : ℚ
  windspeed : ℚ
  winddirection : ℚ
deriving DecidableEq

/-- Embedding of `DataPoint::new()`. -/
def DataPoint.new : DataPoint := ⟨0, 0, 0, 0⟩

/-- Milliseconds per day, for splitting a timestamp into date and
time-of-day components as `date_naive()` / `NaiveDateTime::new` do. -/
def MS_PER_DAY : ℤ := 86400000

/-- A decoded NMEA sentence as dispatched by `process_nmea`. Payload fields
that the source reads through fallible accessors (`timestamp()`,
`wind_speed()`, `angle_true()`, `water_speed()`) are `Option`s: `Err` is
`none` and leaves the accumulator field untouched. Time-only payloads are
milliseconds since midnight; full timestamps are milliseconds since the
epoch. Sentence kinds the source ignores are collapsed into `other`. -/
inductive Nmea where
  | bwc (t : Option ℤ)
  | bwr (t : Option ℤ)
  | gga (t : Option ℤ)
  | grs (t : Option ℤ)
  | gst (t : Option ℤ)
  | gxa (t : Option ℤ)
  | trf (t : Option ℤ)
  | zfo (t : Option ℤ)
  | rmc (t : Option ℤ)
  | zda (t : Option ℤ)
  | ztg (t : Option ℤ)
  | mwv (speed : Option ℚ) (direction : Option ℚ)
  | vbw (speed : Option ℚ)
  | vhw (speed : Option ℚ)
  | other
deriving DecidableEq

/-- Embedding of `Data::process_utc_time`: on `Ok(t)`, keep the accumulator timestamp's
date component (`date_naive()`) and replace the time-of-day with `t.time()`;
on `Err`, leave the accumulator unchanged. -/
def process_utc_time (dp : DataPoint) (t : Option ℤ) : DataPoint :=
  match t with
  | none => dp
  | some tod => { dp with timestamp := (dp.timestamp.fdiv MS_PER_DAY) * MS_PER_DAY + tod }

/-- Embedding of `Data::process_utc_timestamp`: on `Ok(t)`, replace the whole timestamp. -/
def process_utc_timestamp (dp : DataPoint) (t : Option ℤ) : DataPoint :=
  match t with
  | none => dp
  | some ts => { dp with timestamp := ts }

/-- Embedding of `Data::process_nmea`: field-update rules by sentence kind. -/
def process_nmea (dp : DataPoint) (s : Nmea) : DataPoint :=
  match s with
  | .bwc t => process_utc_time dp t
  | .bwr t => process_utc_time dp t
  | .gga t => process_utc_time dp t
  | .grs t => process_utc_time dp t
  | .gst t => process_utc_time dp t
  | .gxa t => process_utc_time dp t
  | .trf t => process_utc_time dp t
  | .zfo t => process_utc_time dp t
  | .rmc t => process_utc_timestamp dp t
  | .zda t => process_utc_timestamp dp t
  | .ztg t => process_utc_timestamp dp t
  | .mwv speed direction =>
    let dp1 := match speed with
      | some v => { dp with windspeed := v }
      | none => dp
    match direction with
      | some d => { dp1 with winddirection := d }
      | none => dp1
  | .vbw speed =>
    match speed with
    | some v => { dp with boatspeed := v }
    | none => dp
  | .vhw speed =>
    match speed with
    | some v => { dp with boatspeed := v }
    | none => dp
  | .other => dp

/-- The completeness predicate of the spec: `boatspeed > 0 AND windspeed > 0
AND winddirection ≠ 0 AND timestamp ≠ default`. -/
def completeDataPoint (p : DataPoint) : Prop :=
  0 < p.boatspeed ∧ 0 < p.windspeed ∧ p.winddirection ≠ 0 ∧ p.timestamp ≠ 0

instance (p : DataPoint) : Decidable (completeDataPoint p) := by
  unfold completeDataPoint; infer_instance

/-- One iteration of the `load_reader` loop on an already-decoded sentence:
run `process_nmea` on the accumulator, then, if the completeness check of the
source passes (in the source's order: windspeed, boatspeed, winddirection,
timestamp), push the accumulator and start a fresh one carrying the emitted
timestamp forward. State is `(emitted points, accumulator)`. -/
def loadStep (st : List DataPoint × DataPoint) (s : Nmea) :
    List DataPoint × DataPoint :=
  let dp := process_nmea st.2 s
  if 0 < dp.windspeed ∧ 0 < dp.boatspeed ∧ dp.winddirection ≠ 0 ∧
      dp.timestamp ≠ 0 then
    (st.1 ++ [dp], ⟨dp.timestamp, 0, 0, 0⟩)
  else
    (st.1, dp)

/-- Embedding of `Data::load_reader` restricted to the core: the sequence of `DataPoint`s
pushed to `self.data` for a given sequence of successfully decoded sentences
(line-read or decode failures abort the whole process upstream and never
reach the assembler). -/
def load_reader (sentences : List Nmea) : List DataPoint :=
  (sentences.foldl loadStep ([], DataPoint.new)).1

/-- The constant `2^32`, for explicit `u32` wrap-around arithmetic. -/
def U32 : ℕ := 4294967296

/-- Wrapping `u32` subtraction `a - b` (the release-profile semantics of the
`height - ...` expressions in `Data::graph`). -/
def u32sub (a b : ℕ) : ℕ := (a + (U32 - b % U32)) % U32

/-- Truncation toward zero of a rational: the integral part kept by an
`f32 as i64` cast. -/
def ratTrunc (q : ℚ) : ℤ := if q < 0 then -⌊-q⌋ else ⌊q⌋

/-- Embedding of `expr as u32` on a non-NaN `f32`: truncate toward zero and saturate to
`[0, 2^32 - 1]`. -/
def ratToU32 (q : ℚ) : ℕ := min (ratTrunc q).toNat (U32 - 1)

/-- Embedding of `slint::Rgb8Pixel`, as used for the three channel colour constants. -/
structure Rgb8Pixel where
  r : ℕ
  g : ℕ
  b : ℕ
deriving DecidableEq

def BOAT_SPEED_COLOUR : Rgb8Pixel := ⟨0, 255, 0⟩

def WIND_SPEED_COLOUR : Rgb8Pixel := ⟨255, 255, 255⟩

def WIND_DIRECTION_COLOUR : Rgb8Pixel := ⟨255, 0, 0⟩

/-- One `GraphicImage::line_from_to` call: a vertical segment in column `x`
between rows `y1` and `y2` in a given colour. -/
structure Draw where
  x : ℕ
  y1 : ℕ
  y2 : ℕ
  colour : Rgb8Pixel
deriving DecidableEq

/-- Result of `Data::graph`: the sequence of draw commands issued to the
canvas (`image`), a panic (`crashed` — the `unwrap()` of the reduced extents
when no point falls in the window), or failure to terminate within the given
fuel (`outOfFuel` — the sweep loop has no termination guard). -/
inductive GraphResult where
  | image (draws : List Draw)
  | crashed
  | outOfFuel
deriving DecidableEq

/-- The component-wise `reduce` closure in `Data::graph`: running
`(min timestamp, max timestamp, min boatspeed, max boatspeed, min windspeed,
max windspeed)`. -/
def graphCombine (a b : ℤ × ℤ × ℚ × ℚ × ℚ × ℚ) : ℤ × ℤ × ℚ × ℚ × ℚ × ℚ :=
  (min a.1 b.1, max a.2.1 b.2.1, min a.2.2.1 b.2.2.1, max a.2.2.2.1 b.2.2.2.1,
    min a.2.2.2.2.1 b.2.2.2.2.1, max a.2.2.2.2.2 b.2.2.2.2.2)

/-- The `map`/`reduce` of `Data::graph` over the window-filtered points:
`none` exactly when the filtered set is empty (where the source `unwrap`s
and panics). -/
def graphExtents (filtered : List DataPoint) :
    Option (ℤ × ℤ × ℚ × ℚ × ℚ × ℚ) :=
  match filtered.map (fun a =>
      (a.timestamp, a.timestamp, a.boatspeed, a.boatspeed,
        a.windspeed, a.windspeed)) with
  | [] => none
  | t :: ts => some (ts.foldl graphCombine t)

/-- Embedding of `speed_ratio` in `Data::graph`:
`(height - 1) as f32 / ((largest_boatspeed.max(largest_windspeed)).floor() + 1f32)`,
with the `u32` subtraction explicit. -/
def speedScaleOf (height : ℕ) (largestBoatspeed largestWindspeed : ℚ) : ℚ :=
  (u32sub height 1 : ℚ) / ((⌊max largestBoatspeed largestWindspeed⌋ : ℚ) + 1)

/-- The three `line_from_to` calls per channel per column: a tick around the
first endpoint, a tick around the second endpoint (both clamped to
`[0, height-1]`), then the connecting segment (not clamped). -/
def channelDraws (height x lowY highY : ℕ) (colour : Rgb8Pixel) : List Draw :=
  [⟨x, if 6 ≤ lowY then lowY - 6 else 0, min (lowY + 6) (u32sub height 1), colour⟩,
    ⟨x, if 6 ≤ highY then highY - 6 else 0, min (highY + 6) (u32sub height 1), colour⟩,
    ⟨x, lowY, highY, colour⟩]

/-- The sweep loop of `Data::graph` (`while bin_start_time <= stop_time`),
with an explicit fuel parameter standing in for the absent termination
guarantee; `ss` and `ds` are `speed_ratio` and `direction_ratio`. Note the
per-bin filter runs over the whole dataset again, exactly as in the source. -/
def graphLoop (data : List DataPoint) (height : ℕ) (ss ds : ℚ)
    (binDur stop : ℤ) : ℕ → ℕ → ℤ → List Draw → GraphResult
  | 0, _, _, _ => .outOfFuel
  | fuel + 1, x, binStart, acc =>
    if binStart ≤ stop then
      let binEnd := binStart + binDur
      let members := data.filter fun a =>
        binStart ≤ a.timestamp ∧ a.timestamp < binEnd
      let bs := calculate_bin_values (members.map (·.boatspeed))
      let ws := calculate_bin_values (members.map (·.windspeed))
      let wd := calculate_bin_values
        (members.map fun a => foldWindDirection a.winddirection)
      let bsHighY := ratToU32 (bs.2 * ss)
      let wsHighY := ratToU32 (ws.2 * ss)
      let wdHighY := u32sub height (ratToU32 (wd.1 * ds))
      let bsLowY := ratToU32 (bs.1 * ss)
      let wsLowY := ratToU32 (ws.1 * ss)
      let wdLowY := u32sub height (ratToU32 (wd.2 * ds))
      graphLoop data height ss ds binDur stop fuel (x + 1) (binStart + binDur)
        (acc ++ channelDraws height x bsLowY bsHighY BOAT_SPEED_COLOUR
          ++ channelDraws height x wsLowY wsHighY WIND_SPEED_COLOUR
          ++ channelDraws height x wdLowY wdHighY WIND_DIRECTION_COLOUR)
    else .image acc

/-- Embedding of `Data::graph`, as the sequence of draw commands issued to the
`GraphicImage` before `to_image()` exports it. -/
def graph (data : List DataPoint) (width height : ℕ)
    (start_datetime end_datetime : ℤ) (fuel : ℕ) : GraphResult :=
  if 2 ≤ data.length then
    match graphExtents (data.filter fun a =>
        start_datetime ≤ a.timestamp ∧ a.timestamp ≤ end_datetime) with
    | none => .crashed
    | some (earliest, latest, _, largestBoatspeed, _, largestWindspeed) =>
      let ss := speedScaleOf height largestBoatspeed largestWindspeed
      let ds := (height : ℚ) / 180
      let timeRange : ℚ := ((min latest end_datetime - earliest : ℤ) : ℚ)
      let binDur := ratTrunc (timeRange / (width : ℚ))
      graphLoop data height ss ds binDur (min latest end_datetime) fuel 0
        (max earliest start_datetime) []
  else .image []

/-- Reversing the ascending `(count, value)` insertion sort gives exactly the
descending-count, descending-value-on-ties order: the comparator admits no
ties between distinct entries, so the sorted list is unique. -/
theorem reverse_insertionSort_freqLe (m : List (ℚ × ℤ)) :
    (List.insertionSort freqLe m).reverse = List.insertionSort freqGeDesc m := by
  apply List.eq_of_perm_of_sorted (r := freqGeDesc)
  · exact (List.reverse_perm _).trans
      ((List.perm_insertionSort freqLe m).trans (List.perm_insertionSort freqGeDesc m).symm)
  · have hs : List.Sorted freqLe (List.insertionSort freqLe m) :=
      List.sorted_insertionSort freqLe m
    rw [List.Sorted, List.pairwise_reverse]
    refine hs.imp ?_
    rintro ⟨av, ac⟩ ⟨bv, bc⟩ (h | ⟨h, h'⟩)
    · exact Or.inl h
    · exact Or.inr ⟨h.symm, h'⟩
  · exact List.sorted_insertionSort freqGeDesc m

/-- Claim C4, counterexample: on `[5, 5, 1, 3]` the code returns `(3, 5)`
(the two tied count-1 groups are ordered by *descending* value, so the
second-most-frequent representative is `3`), while the claim's procedure
(ties broken by ascending value) would return `(1, 5)`. -/
theorem claim4_counterexample :
    calculate_bin_values [5, 5, 1, 3] = (3, 5) ∧
      calculate_bin_values_specC4 [5, 5, 1, 3] = (1, 5) := by
  constructor <;>
    norm_num [calculate_bin_values, calculate_bin_values_specC4, buildFreq,
      insertFreq, approxEq, eps, abs_lt, List.insertionSort, List.orderedInsert,
      freqLe, freqGeClaim]

/-- Claim C4 as amended: `calculate_bin_values` returns `(0,0)` on no members
and `(v,v)` on one member, and otherwise groups values by epsilon approximate
equality, counts occurrences, sorts the groups descending by count with ties
broken by *descending* value, takes the first two representatives and returns
their `(min, max)` — i.e. it coincides with `calculate_bin_values_specAmended`
on every input. -/
theorem claim4_amended (data : List ℚ) :
    calculate_bin_values data = calculate_bin_values_specAmended data := by
  match data with
  | [] => rfl
  | [x] => rfl
  | x :: y :: rest =>
    simp only [calculate_bin_values, calculate_bin_values_specAmended]
    rw [reverse_insertionSort_freqLe]

/-- Claim C9: the pair returned by `calculate_bin_values` always satisfies
`low ≤ high` (for the `ℚ` model of non-NaN floats). -/
theorem claim9_low_le_high (data : List ℚ) :
    (calculate_bin_values data).1 ≤ (calculate_bin_values data).2 := by
  match data with
  | [] => exact le_refl 0
  | [x] => exact le_refl x
  | x :: y :: rest =>
    simp only [calculate_bin_values]
    exact min_le_max

/-- Claim C6: the wind-direction fold used in `Data::graph` is the function
`v' = 360 - v` for `v > 180` and `v' = v` otherwise; it is idempotent on
`[0, 180]`, and maps `200 ↦ 160`, `360 ↦ 0` and `0 ↦ 0`. -/
theorem claim6_fold_wind_direction (w v : ℚ) (_h0 : 0 ≤ v) (h1 : v ≤ 180) :
    foldWindDirection w = (if w > 180 then 360 - w else w) ∧
      foldWindDirection (foldWindDirection v) = foldWindDirection v ∧
      foldWindDirection 200 = 160 ∧ foldWindDirection 360 = 0 ∧
      foldWindDirection 0 = 0 := by
  have hv : foldWindDirection v = v := if_neg (not_lt.mpr h1)
  refine ⟨rfl, ?_, ?_, ?_, ?_⟩
  · rw [hv, hv]
  · norm_num [foldWindDirection]
  · norm_num [foldWindDirection]
  · norm_num [foldWindDirection]

/-- Witness for claim C6 at `w = 200`, `v = 90`. -/
theorem claim6_witness :
    (0 ≤ (90 : ℚ) ∧ (90 : ℚ) ≤ 180) ∧
      (foldWindDirection 200 = (if (200 : ℚ) > 180 then 360 - 200 else 200) ∧
        foldWindDirection (foldWindDirection 90) = foldWindDirection 90 ∧
        foldWindDirection 200 = 160 ∧ foldWindDirection 360 = 0 ∧
        foldWindDirection 0 = 0) :=
  ⟨⟨by norm_num, by norm_num⟩,
    claim6_fold_wind_direction 200 90 (by norm_num) (by norm_num)⟩

theorem insertFreq_eq_insertExact {L : List ℚ} (hsep : Separated L)
    {x : ℚ} (hx : x ∈ L) :
    ∀ {acc : List (ℚ × ℤ)}, (∀ p ∈ acc, p.1 ∈ L) →
      insertFreq acc x = insertExact acc x := by
  intro acc
  induction acc with
  | nil => intro _; rfl
  | cons p rest ih =>
    obtain ⟨k, c⟩ := p
    intro hacc
    have hk : k ∈ L := hacc (k, c) (List.mem_cons_self _ _)
    have heq : approxEq k x ↔ k = x := by
      constructor
      · exact hsep k hk x hx
      · rintro rfl
        unfold approxEq
        simp [eps]
    simp only [insertFreq, insertExact]
    by_cases h : k = x
    · rw [if_pos (heq.mpr h), if_pos h]
    · rw [if_neg (fun hh => h (heq.mp hh)), if_neg h,
        ih (fun q hq => hacc q (List.mem_cons_of_mem _ hq))]

theorem keys_insertExact (acc : List (ℚ × ℤ)) (x : ℚ) :
    (insertExact acc x).map Prod.fst =
      if x ∈ acc.map Prod.fst then acc.map Prod.fst
      else acc.map Prod.fst ++ [x] := by
  induction acc with
  | nil => simp [insertExact]
  | cons p rest ih =>
    obtain ⟨k, c⟩ := p
    by_cases h : k = x
    · subst h
      simp [insertExact]
    · simp only [insertExact, if_neg h, List.map_cons, List.mem_cons]
      rw [ih]
      by_cases hx : x ∈ rest.map Prod.fst
      · rw [if_pos hx, if_pos (Or.inr hx)]
      · rw [if_neg hx, if_neg (by
          rintro (h' | h')
          · exact h h'.symm
          · exact hx h'), List.cons_append]

theorem foldl_insertFreq_eq_exact {L : List ℚ} (hsep : Separated L) :
    ∀ (l : List ℚ) (acc : List (ℚ × ℤ)), (∀ x ∈ l, x ∈ L) →
      (∀ p ∈ acc, p.1 ∈ L) →
      l.foldl insertFreq acc = l.foldl insertExact acc := by
  intro l
  induction l with
  | nil => intro _ _ _; rfl
  | cons x xs ih =>
    intro acc hl hacc
    have hx : x ∈ L := hl x (List.mem_cons_self _ _)
    have hacc' : ∀ p ∈ insertExact acc x, p.1 ∈ L := by
      intro p hp
      have : p.1 ∈ (insertExact acc x).map Prod.fst := List.mem_map_of_mem _ hp
      rw [keys_insertExact] at this
      by_cases hmem : x ∈ acc.map Prod.fst
      · rw [if_pos hmem] at this
        obtain ⟨q, hq, hq'⟩ := List.mem_map.mp this
        exact hq' ▸ hacc q hq
      · rw [if_neg hmem] at this
        rcases List.mem_append.mp this with h' | h'
        · obtain ⟨q, hq, hq'⟩ := List.mem_map.mp h'
          exact hq' ▸ hacc q hq
        · rw [List.mem_singleton.mp h']
          exact hx
    rw [List.foldl_cons, List.foldl_cons,
      insertFreq_eq_insertExact hsep hx hacc,
      ih (insertExact acc x) (fun y hy => hl y (List.mem_cons_of_mem _ hy)) hacc']

theorem lookupF_insertExact (acc : List (ℚ × ℤ)) (x v : ℚ) :
    lookupF (insertExact acc x) v =
      if v = x then some ((lookupF acc x).getD 0 + 1) else lookupF acc v := by
  induction acc with
  | nil =>
    by_cases h : v = x
    · subst h
      simp [insertExact, lookupF]
    · have h' : ¬x = v := fun hh => h hh.symm
      simp [insertExact, lookupF, h, h']
  | cons p rest ih =>
    obtain ⟨k, c⟩ := p
    by_cases hk : k = x
    · subst hk
      by_cases h : v = k
      · subst h
        simp [insertExact, lookupF]
      · have h' : ¬k = v := fun hh => h hh.symm
        simp [insertExact, lookupF, h, h']
    · simp only [insertExact, if_neg hk, lookupF]
      by_cases hkv : k = v
      · have hvx : ¬v = x := fun hh => hk (hkv.trans hh)
        rw [if_pos hkv, if_neg hvx, if_pos hkv]
      · simp only [if_neg hkv]
        rw [ih]

theorem lookupF_foldl_insertExact (l : List ℚ) :
    ∀ (acc : List (ℚ × ℤ)) (v : ℚ),
      lookupF (l.foldl insertExact acc) v =
        match lookupF acc v with
        | some c => some (c + l.count v)
        | none => if v ∈ l then some (l.count v) else none := by
  induction l with
  | nil =>
    intro acc v
    cases h : lookupF acc v <;> simp [h]
  | cons x xs ih =>
    intro acc v
    rw [List.foldl_cons, ih]
    by_cases hvx : v = x
    · subst hvx
      rw [lookupF_insertExact, if_pos rfl]
      cases h : lookupF acc v <;>
        simp [h, List.count_cons] <;> omega
    · rw [lookupF_insertExact, if_neg hvx]
      cases h : lookupF acc v <;>
        simp [h, List.count_cons, hvx, List.mem_cons]

theorem keys_nodup_foldl_insertExact (l : List ℚ) :
    ∀ acc : List (ℚ × ℤ), ((acc.map Prod.fst).Nodup) →
      ((l.foldl insertExact acc).map Prod.fst).Nodup := by
  induction l with
  | nil => intro acc h; exact h
  | cons x xs ih =>
    intro acc h
    rw [List.foldl_cons]
    apply ih
    rw [keys_insertExact]
    by_cases hmem : x ∈ acc.map Prod.fst
    · rwa [if_pos hmem]
    · rw [if_neg hmem]
      exact List.Nodup.append h (List.nodup_singleton x)
        (List.disjoint_singleton.mpr hmem)

theorem mem_iff_lookupF {m : List (ℚ × ℤ)} (h : (m.map Prod.fst).Nodup)
    (v : ℚ) (c : ℤ) : (v, c) ∈ m ↔ lookupF m v = some c := by
  induction m with
  | nil => simp [lookupF]
  | cons p rest ih =>
    obtain ⟨k, c'⟩ := p
    rw [List.map_cons, List.nodup_cons] at h
    by_cases hkv : k = v
    · subst hkv
      rw [lookupF, if_pos rfl]
      constructor
      · intro hh
        rcases List.mem_cons.mp hh with hh | hh
        · have hc : c = c' := congrArg Prod.snd hh
          rw [hc]
        · exact absurd (List.mem_map_of_mem Prod.fst hh) h.1
      · intro hh
        have hc : c' = c := Option.some.inj hh
        rw [← hc]
        exact List.mem_cons_self _ _
    · rw [lookupF, if_neg hkv, List.mem_cons, ← ih h.2]
      constructor
      · rintro (hh | hh)
        · exact absurd (congrArg Prod.fst hh).symm hkv
        · exact hh
      · exact Or.inr

theorem buildFreqExact_perm {l l' : List ℚ} (h : l.Perm l') :
    (l.foldl insertExact []).Perm (l'.foldl insertExact []) := by
  have nd : ((l.foldl insertExact []).map Prod.fst).Nodup :=
    keys_nodup_foldl_insertExact l [] List.nodup_nil
  have nd' : ((l'.foldl insertExact []).map Prod.fst).Nodup :=
    keys_nodup_foldl_insertExact l' [] List.nodup_nil
  rw [List.perm_ext_iff_of_nodup nd.of_map nd'.of_map]
  rintro ⟨v, c⟩
  rw [mem_iff_lookupF nd, mem_iff_lookupF nd',
    lookupF_foldl_insertExact, lookupF_foldl_insertExact]
  simp only [lookupF]
  simp only [h.count_eq, h.mem_iff]

theorem buildFreq_perm {l l' : List ℚ} (hsep : Separated l) (h : l.Perm l') :
    (buildFreq l).Perm (buildFreq l') := by
  have hsep' : Separated l' := fun a ha b hb =>
    hsep a (h.mem_iff.mpr ha) b (h.mem_iff.mpr hb)
  rw [buildFreq, buildFreq,
    foldl_insertFreq_eq_exact hsep l [] (fun x hx => hx) (by simp),
    foldl_insertFreq_eq_exact hsep' l' [] (fun x hx => hx) (by simp)]
  exact buildFreqExact_perm h

/-- Claim C5, counterexample: the epsilon-grouping pass is order-dependent.
On `[0, ε/2, ε]` the value `ε` starts a second group (it is not within `ε` of
the representative `0`), giving `(0, ε)`; on the permutation `[ε/2, 0, ε]`
every value is within `ε` of the representative `ε/2`, giving a single group
and `(ε/2, ε/2)`. -/
theorem claim5_counterexample :
    ([0, 1 / 2000000, 1 / 1000000] : List ℚ).Perm [1 / 2000000, 0, 1 / 1000000] ∧
      calculate_bin_values [0, 1 / 2000000, 1 / 1000000] ≠
        calculate_bin_values [1 / 2000000, 0, 1 / 1000000] := by
  constructor
  · exact List.Perm.swap (1 / 2000000) 0 [1 / 1000000]
  · norm_num [calculate_bin_values, buildFreq, insertFreq, approxEq, eps,
      abs_lt, List.insertionSort, List.orderedInsert, freqLe]

/-- Claim C5 as amended: on lists whose members are pairwise either equal or
at least `eps` apart (so that the epsilon-grouping is unambiguous),
`calculate_bin_values` is invariant under permutation of the members. -/
theorem claim5_amended (l l' : List ℚ) (hsep : Separated l)
    (hperm : l.Perm l') : calculate_bin_values l = calculate_bin_values l' := by
  have hsort : List.insertionSort freqLe (buildFreq l) =
      List.insertionSort freqLe (buildFreq l') :=
    List.eq_of_perm_of_sorted
      ((List.perm_insertionSort _ _).trans ((buildFreq_perm hsep hperm).trans
        (List.perm_insertionSort _ _).symm))
      (List.sorted_insertionSort _ _) (List.sorted_insertionSort _ _)
  rcases l with _ | ⟨x, _ | ⟨y, rest⟩⟩
  · rw [hperm.symm.eq_nil]
  · rw [← (List.singleton_perm.mp hperm)]
  · rcases l' with _ | ⟨a, _ | ⟨b, r⟩⟩
    · have := hperm.length_eq
      simp at this
    · have := hperm.length_eq
      simp at this
    · simp only [calculate_bin_values]
      rw [hsort]

/-- Witness for the amended claim C5 on the separated list `[1, 2, 1]` and
its permutation `[2, 1, 1]`. -/
theorem claim5_witness :
    Separated [1, 2, 1] ∧ ([1, 2, 1] : List ℚ).Perm [2, 1, 1] ∧
      calculate_bin_values [1, 2, 1] = calculate_bin_values [2, 1, 1] := by
  have hsep : Separated [1, 2, 1] := by
    norm_num [Separated, approxEq, eps, abs_lt]
  have hperm : ([1, 2, 1] : List ℚ).Perm [2, 1, 1] :=
    List.Perm.swap 2 1 [1]
  exact ⟨hsep, hperm, claim5_amended _ _ hsep hperm⟩

theorem mem_foldl_loadStep (ss : List Nmea) :
    ∀ st : List DataPoint × DataPoint, (∀ q ∈ st.1, completeDataPoint q) →
      ∀ q ∈ (ss.foldl loadStep st).1, completeDataPoint q := by
  induction ss with
  | nil => intro st h q hq; exact h q hq
  | cons s ss ih =>
    intro st h
    rw [List.foldl_cons]
    apply ih
    intro q hq
    simp only [loadStep] at hq
    by_cases hc : 0 < (process_nmea st.2 s).windspeed ∧
        0 < (process_nmea st.2 s).boatspeed ∧
        (process_nmea st.2 s).winddirection ≠ 0 ∧
        (process_nmea st.2 s).timestamp ≠ 0
    · rw [if_pos hc] at hq
      rcases List.mem_append.mp hq with hq | hq
      · exact h q hq
      · rw [List.mem_singleton.mp hq]
        exact ⟨hc.2.1, hc.1, hc.2.2⟩
    · rw [if_neg hc] at hq
      exact h q hq

/-- Claim C1: every `DataPoint` that `load_reader` appends to the output
sequence satisfies the completeness predicate (`boatspeed > 0`,
`windspeed > 0`, `winddirection ≠ 0`, `timestamp ≠` the epoch default):
emission is guarded by exactly this check. -/
theorem claim1_assembler_complete (sentences : List Nmea) (p : DataPoint)
    (hp : p ∈ load_reader sentences) : completeDataPoint p :=
  mem_foldl_loadStep sentences ([], DataPoint.new) (by simp) p hp

/-- Witness for claim C1: a three-sentence run (wind, boat speed, RMC
timestamp) that emits exactly one point. -/
theorem claim1_witness :
    (⟨1000, 2, 5, 30⟩ : DataPoint) ∈
        load_reader [.mwv (some 5) (some 30), .vhw (some 2), .rmc (some 1000)] ∧
      completeDataPoint ⟨1000, 2, 5, 30⟩ := by
  have hmem : (⟨1000, 2, 5, 30⟩ : DataPoint) ∈
      load_reader [.mwv (some 5) (some 30), .vhw (some 2), .rmc (some 1000)] := by
    norm_num [load_reader, loadStep, process_nmea, process_utc_timestamp,
      DataPoint.new]
  exact ⟨hmem, claim1_assembler_complete _ _ hmem⟩

/-- Claim C7: whenever one `load_reader` iteration emits a completed point
`p`, the new accumulator is exactly `{ timestamp := p.timestamp,
boatspeed := 0, windspeed := 0, winddirection := 0 }` — the emitted
timestamp is carried forward and the three measurement fields are reset to
their unset sentinel. -/
theorem claim7_accumulator_reset (out : List DataPoint) (dp : DataPoint)
    (s : Nmea) (p : DataPoint) (h : (loadStep (out, dp) s).1 = out ++ [p]) :
    (loadStep (out, dp) s).2 = ⟨p.timestamp, 0, 0, 0⟩ := by
  simp only [loadStep] at h ⊢
  by_cases hc : 0 < (process_nmea dp s).windspeed ∧
      0 < (process_nmea dp s).boatspeed ∧
      (process_nmea dp s).winddirection ≠ 0 ∧ (process_nmea dp s).timestamp ≠ 0
  · rw [if_pos hc] at h ⊢
    have hp : process_nmea dp s = p := by
      have := List.append_cancel_left h
      exact (List.singleton_inj.mp this)
    rw [hp]
  · rw [if_neg hc] at h
    exfalso
    have := congrArg List.length h
    simp at this

/-- Witness for claim C7: an RMC sentence completes the accumulator
`⟨0, 2, 5, 30⟩`; the emitted point is `⟨1000, 2, 5, 30⟩` and the new
accumulator is `⟨1000, 0, 0, 0⟩`. -/
theorem claim7_witness :
    (loadStep ([], ⟨0, 2, 5, 30⟩) (.rmc (some 1000))).1 =
        [] ++ [(⟨1000, 2, 5, 30⟩ : DataPoint)] ∧
      (loadStep ([], ⟨0, 2, 5, 30⟩) (.rmc (some 1000))).2 = ⟨1000, 0, 0, 0⟩ := by
  have h : (loadStep ([], ⟨0, 2, 5, 30⟩) (.rmc (some 1000))).1 =
      [] ++ [(⟨1000, 2, 5, 30⟩ : DataPoint)] := by
    norm_num [loadStep, process_nmea, process_utc_timestamp]
  exact ⟨h, claim7_accumulator_reset [] _ _ _ h⟩

/-- Claim C2, counterexample: the blank-result guard checks
`self.data.len() >= 2` on the *whole* dataset, not on the window-filtered
set. With 2 points in the dataset but none inside the visible range
`[0, 500]`, the filtered `reduce` is `None` and the source `unwrap()`
panics instead of producing a blank image. -/
theorem claim2_counterexample :
    graph [⟨1000, 1, 1, 90⟩, ⟨2000, 1, 1, 90⟩] 10 100 0 500 1000 =
      GraphResult.crashed := by
  norm_num [graph, graphExtents]

/-- Claim C2 as amended: if the *dataset as a whole* has fewer than 2
points, `graph` issues no draw calls and returns the blank image without
error; in particular the empty dataset yields a blank image. -/
theorem claim2_amended (data : List DataPoint) (width height : ℕ)
    (s e : ℤ) (fuel : ℕ) (h : data.length < 2) :
    graph data width height s e fuel = GraphResult.image [] := by
  rw [graph, if_neg (by omega)]

/-- Witness for the amended claim C2 on the empty dataset. -/
theorem claim2_witness :
    ([] : List DataPoint).length < 2 ∧
      graph [] 10 100 0 500 5 = GraphResult.image [] :=
  ⟨by simp, claim2_amended [] 10 100 0 500 5 (by simp)⟩

theorem graphLoop_zero_binDur (data : List DataPoint) (height : ℕ)
    (ss ds : ℚ) (stop : ℤ) :
    ∀ (fuel x : ℕ) (binStart : ℤ) (acc : List Draw), binStart ≤ stop →
      graphLoop data height ss ds 0 stop fuel x binStart acc =
        GraphResult.outOfFuel := by
  intro fuel
  induction fuel with
  | zero => intro x binStart acc _; rfl
  | succ n ih =>
    intro x binStart acc h
    rw [graphLoop, if_pos h]
    rw [add_zero]
    exact ih (x + 1) binStart _ h

/-- Claim C3 does not hold of the source: with at least 2 in-window points
and positive width, when the computed `bin_time_range` truncates to zero
milliseconds (here: two points sharing one timestamp) the sweep never
advances `bin_start_time`, so the loop runs forever — `graph` exhausts every
fuel bound instead of terminating after at most `width` columns. -/
theorem claim3_sweep_nonterminating (fuel : ℕ) :
    graph [⟨1000, 2, 2, 90⟩, ⟨1000, 2, 2, 90⟩] 3 100 0 2000 fuel =
      GraphResult.outOfFuel := by
  have h : graph [⟨1000, 2, 2, 90⟩, ⟨1000, 2, 2, 90⟩] 3 100 0 2000 fuel =
      graphLoop [⟨1000, 2, 2, 90⟩, ⟨1000, 2, 2, 90⟩] 100
        (speedScaleOf 100 2 2) ((100 : ℚ) / 180) 0 1000 fuel 0 1000 [] := by
    norm_num [graph, graphExtents, graphCombine, ratTrunc]
  rw [h]
  exact graphLoop_zero_binDur _ _ _ _ _ fuel 0 1000 [] le_rfl

/-- Claim C10: a completed point with `winddirection = 360` (which passes the
completeness predicate, since only `0` is rejected) folds to direction value
`0`; the direction channel's row for a bin whose folded low value is `0` is
`height - 0 = height`, and `graph` issues a draw command at row `height`
(= 100 here) — one past the last valid canvas row `height - 1`. -/
theorem claim10_draw_at_height :
    (match graph [⟨1000, 1, 1, 360⟩, ⟨2000, 1, 1, 360⟩] 1 100 1000 2000 5 with
      | GraphResult.image ds =>
          (⟨0, 100, 100, WIND_DIRECTION_COLOUR⟩ : Draw) ∈ ds
      | _ => False) ∧
      completeDataPoint ⟨1000, 1, 1, 360⟩ ∧ foldWindDirection 360 = 0 := by
  refine ⟨?_, ?_, ?_⟩
  · norm_num [graph, graphExtents, graphCombine, graphLoop, channelDraws,
      speedScaleOf, ratTrunc, ratToU32, u32sub, U32, calculate_bin_values,
      buildFreq, insertFreq, approxEq, eps, abs_lt, foldWindDirection,
      List.insertionSort, List.orderedInsert, freqLe, BOAT_SPEED_COLOUR,
      WIND_SPEED_COLOUR, WIND_DIRECTION_COLOUR]
  · norm_num [completeDataPoint]
  · norm_num [foldWindDirection]

theorem foldl_graphCombine_max (π : ℤ × ℤ × ℚ × ℚ × ℚ × ℚ → ℚ)
    (hπ : ∀ a b, π (graphCombine a b) = max (π a) (π b)) :
    ∀ (ps : List (ℤ × ℤ × ℚ × ℚ × ℚ × ℚ)) (t),
      (π (ps.foldl graphCombine t) = π t ∨
        ∃ b ∈ ps, π (ps.foldl graphCombine t) = π b) ∧
      π t ≤ π (ps.foldl graphCombine t) ∧
      ∀ b ∈ ps, π b ≤ π (ps.foldl graphCombine t) := by
  intro ps
  induction ps with
  | nil => intro t; exact ⟨Or.inl rfl, le_rfl, by simp⟩
  | cons b ps ih =>
    intro t
    rw [List.foldl_cons]
    obtain ⟨hmem, hle, hub⟩ := ih (graphCombine t b)
    refine ⟨?_, ?_, ?_⟩
    · rcases hmem with h | ⟨b', hb', h⟩
      · rw [h, hπ]
        rcases max_choice (π t) (π b) with h' | h'
        · exact Or.inl h'
        · exact Or.inr ⟨b, List.mem_cons_self _ _, h'⟩
      · exact Or.inr ⟨b', List.mem_cons_of_mem _ hb', h⟩
    · calc π t ≤ max (π t) (π b) := le_max_left _ _
        _ = π (graphCombine t b) := (hπ t b).symm
        _ ≤ _ := hle
    · intro b' hb'
      rcases List.mem_cons.mp hb' with h | h
      · subst h
        calc π b' ≤ max (π t) (π b') := le_max_right _ _
          _ = π (graphCombine t b') := (hπ t b').symm
          _ ≤ _ := hle
      · exact hub b' h

theorem graphExtents_max_spec (l : List DataPoint) (hne : l ≠ []) :
    ∃ t1 t2 bmin bmax wmin wmax,
      graphExtents l = some (t1, t2, bmin, bmax, wmin, wmax) ∧
        bmax ∈ l.map DataPoint.boatspeed ∧
        (∀ v ∈ l.map DataPoint.boatspeed, v ≤ bmax) ∧
        wmax ∈ l.map DataPoint.windspeed ∧
        (∀ v ∈ l.map DataPoint.windspeed, v ≤ wmax) := by
  match l with
  | [] => exact absurd rfl hne
  | p :: ps =>
    have tup : DataPoint → ℤ × ℤ × ℚ × ℚ × ℚ × ℚ := fun a =>
      (a.timestamp, a.timestamp, a.boatspeed, a.boatspeed,
        a.windspeed, a.windspeed)
    obtain ⟨hbmem, hble, hbub⟩ :=
      foldl_graphCombine_max (fun z => z.2.2.2.1) (fun a b => rfl)
        (ps.map fun a => (a.timestamp, a.timestamp, a.boatspeed, a.boatspeed,
          a.windspeed, a.windspeed))
        (p.timestamp, p.timestamp, p.boatspeed, p.boatspeed,
          p.windspeed, p.windspeed)
    obtain ⟨hwmem, hwle, hwub⟩ :=
      foldl_graphCombine_max (fun z => z.2.2.2.2.2) (fun a b => rfl)
        (ps.map fun a => (a.timestamp, a.timestamp, a.boatspeed, a.boatspeed,
          a.windspeed, a.windspeed))
        (p.timestamp, p.timestamp, p.boatspeed, p.boatspeed,
          p.windspeed, p.windspeed)
    set r := ((ps.map fun a => (a.timestamp, a.timestamp, a.boatspeed,
      a.boatspeed, a.windspeed, a.windspeed)).foldl graphCombine
        (p.timestamp, p.timestamp, p.boatspeed, p.boatspeed,
          p.windspeed, p.windspeed)) with hr
    refine ⟨r.1, r.2.1, r.2.2.1, r.2.2.2.1, r.2.2.2.2.1, r.2.2.2.2.2,
      rfl, ?_, ?_, ?_, ?_⟩
    · rcases hbmem with h | ⟨b, hb, h⟩
      · rw [h]
        exact List.mem_map_of_mem _ (List.mem_cons_self _ _)
      · obtain ⟨q, hq, rfl⟩ := List.mem_map.mp hb
        rw [h]
        exact List.mem_map_of_mem _ (List.mem_cons_of_mem _ hq)
    · intro v hv
      obtain ⟨q, hq, rfl⟩ := List.mem_map.mp hv
      rcases List.mem_cons.mp hq with h | h
      · subst h
        exact hble
      · exact hbub _ (List.mem_map_of_mem _ h)
    · rcases hwmem with h | ⟨b, hb, h⟩
      · rw [h]
        exact List.mem_map_of_mem _ (List.mem_cons_self _ _)
      · obtain ⟨q, hq, rfl⟩ := List.mem_map.mp hb
        rw [h]
        exact List.mem_map_of_mem _ (List.mem_cons_of_mem _ hq)
    · intro v hv
      obtain ⟨q, hq, rfl⟩ := List.mem_map.mp hv
      rcases List.mem_cons.mp hq with h | h
      · subst h
        exact hwle
      · exact hwub _ (List.mem_map_of_mem _ h)

theorem u32sub_eq {a b : ℕ} (hb : b ≤ a) (ha : a < U32) :
    u32sub a b = a - b := by
  have hbU : b % U32 = b := Nat.mod_eq_of_lt (lt_of_le_of_lt hb ha)
  rw [u32sub, hbU]
  have hU : b ≤ U32 := le_of_lt (lt_of_le_of_lt hb ha)
  have h3 : a + (U32 - b) = (a - b) + U32 := by omega
  rw [h3, Nat.add_mod_right, Nat.mod_eq_of_lt (by omega)]

/-- Claim C8: with at least 2 in-window points, the vertical speed scale
that `graph` computes (and applies to both speed channels) equals
`(height - 1) / (floor(max(global_max_boatspeed, global_max_windspeed)) + 1)`,
where the two global maxima range over exactly the points inside the visible
window. -/
theorem claim8_shared_speed_scale (data : List DataPoint) (height : ℕ)
    (s e : ℤ) (h1 : 1 ≤ height) (h2 : height < U32)
    (hlen : 2 ≤ (data.filter fun a =>
      s ≤ a.timestamp ∧ a.timestamp ≤ e).length) :
    ∃ t1 t2 bmin bmax wmin wmax,
      graphExtents (data.filter fun a =>
          s ≤ a.timestamp ∧ a.timestamp ≤ e) =
          some (t1, t2, bmin, bmax, wmin, wmax) ∧
        bmax ∈ (data.filter fun a =>
          s ≤ a.timestamp ∧ a.timestamp ≤ e).map DataPoint.boatspeed ∧
        (∀ v ∈ (data.filter fun a =>
          s ≤ a.timestamp ∧ a.timestamp ≤ e).map DataPoint.boatspeed,
            v ≤ bmax) ∧
        wmax ∈ (data.filter fun a =>
          s ≤ a.timestamp ∧ a.timestamp ≤ e).map DataPoint.windspeed ∧
        (∀ v ∈ (data.filter fun a =>
          s ≤ a.timestamp ∧ a.timestamp ≤ e).map DataPoint.windspeed,
            v ≤ wmax) ∧
        speedScaleOf height bmax wmax =
          ((height : ℚ) - 1) / ((⌊max bmax wmax⌋ : ℚ) + 1) := by
  have hne : (data.filter fun a => s ≤ a.timestamp ∧ a.timestamp ≤ e) ≠ [] := by
    intro h
    rw [h] at hlen
    simp at hlen
  obtain ⟨t1, t2, bmin, bmax, wmin, wmax, hex, hb1, hb2, hw1, hw2⟩ :=
    graphExtents_max_spec _ hne
  refine ⟨t1, t2, bmin, bmax, wmin, wmax, hex, hb1, hb2, hw1, hw2, ?_⟩
  rw [speedScaleOf, u32sub_eq h1 h2, Nat.cast_sub h1, Nat.cast_one]

/-- Witness for claim C8 on a two-point dataset fully inside the window. -/
theorem claim8_witness :
    (1 ≤ 100 ∧ 100 < U32 ∧
        2 ≤ (([⟨1000, 2, 5, 10⟩, ⟨2000, 3, 4, 20⟩] : List DataPoint).filter
          fun a => 0 ≤ a.timestamp ∧ a.timestamp ≤ 3000).length) ∧
      (∃ t1 t2 bmin bmax wmin wmax,
        graphExtents (([⟨1000, 2, 5, 10⟩, ⟨2000, 3, 4, 20⟩] :
            List DataPoint).filter fun a =>
              0 ≤ a.timestamp ∧ a.timestamp ≤ 3000) =
            some (t1, t2, bmin, bmax, wmin, wmax) ∧
          bmax ∈ (([⟨1000, 2, 5, 10⟩, ⟨2000, 3, 4, 20⟩] :
            List DataPoint).filter fun a =>
              0 ≤ a.timestamp ∧ a.timestamp ≤ 3000).map DataPoint.boatspeed ∧
          (∀ v ∈ (([⟨1000, 2, 5, 10⟩, ⟨2000, 3, 4, 20⟩] :
            List DataPoint).filter fun a =>
              0 ≤ a.timestamp ∧ a.timestamp ≤ 3000).map DataPoint.boatspeed,
                v ≤ bmax) ∧
          wmax ∈ (([⟨1000, 2, 5, 10⟩, ⟨2000, 3, 4, 20⟩] :
            List DataPoint).filter fun a =>
              0 ≤ a.timestamp ∧ a.timestamp ≤ 3000).map DataPoint.windspeed ∧
          (∀ v ∈ (([⟨1000, 2, 5, 10⟩, ⟨2000, 3, 4, 20⟩] :
            List DataPoint).filter fun a =>
              0 ≤ a.timestamp ∧ a.timestamp ≤ 3000).map DataPoint.windspeed,
                v ≤ wmax) ∧
          speedScaleOf 100 bmax wmax =
            ((100 : ℚ) - 1) / ((⌊max bmax wmax⌋ : ℚ) + 1)) :=
  ⟨⟨by norm_num, by norm_num [U32], by norm_num⟩,
    claim8_shared_speed_scale [⟨1000, 2, 5, 10⟩, ⟨2000, 3, 4, 20⟩] 100 0 3000
      (by norm_num) (by norm_num [U32]) (by norm_num)⟩
